import Mathlib

/-!
# Verification of the voxvault audio core

Shallow embedding of the utterance accumulator (`audio/processor.rs`), the
streaming decoder (`voxtral/streaming.rs`) and the capture sample conversion
(`audio/capture.rs`) of `voxvault-core`, together with proofs about the
spec-level claims on these components.

Modelling conventions:
* `f32` sample values are modelled as exact rationals (`ℚ`); all the
  properties proved here depend on sample values only through exact
  comparisons, lengths and list structure.
* The external model crate (`voxtral_mini_realtime`: resampler, padding,
  mel front end, quantized model, tokenizer) is out of scope of the
  repository and is embedded as explicit function parameters (oracles).
* Wall-clock quantities (timestamps, elapsed time) are not modelled;
  only the *presence* of the `rtf` field is, which in the source depends
  solely on whether the audio duration is positive.
-/

namespace VoxVault

/-! ## Data model: chunks, buffers, accumulator state -/

/-- A captured audio chunk (`AudioChunk` in `audio/capture.rs`):
PCM samples as `f32` (modelled as `ℚ`) plus the capture sample rate. -/
structure AudioChunk where
  samples : List ℚ
  sample_rate : ℕ
  deriving DecidableEq, Repr

/-- A 16 kHz mono PCM window (`AudioBuffer` of the model crate, as used by
`audio/processor.rs`): samples plus sample rate. -/
structure AudioBuffer where
  samples : List ℚ
  sample_rate : ℕ
  deriving DecidableEq, Repr

/-- Mutable state of `AudioProcessor` (`audio/processor.rs`): the
accumulated samples, the consecutive-silent-chunk counter, the
speech-seen flag and the pre-roll buffer. -/
structure ProcState where
  accumulated : List ℚ
  silence_count : ℕ
  has_speech : Bool
  pre_roll : List ℚ
  deriving DecidableEq, Repr

/-- Configuration of `AudioProcessor`: minimum/maximum window size in
samples, the silence-pause chunk count and the RMS speech threshold.
The target sample rate is always 16000 in `AudioProcessor::new`. -/
structure ProcConfig where
  min_samples : ℕ
  max_samples : ℕ
  silence_pause_chunks : ℕ
  speech_threshold : ℚ
  deriving DecidableEq, Repr

/-- The freshly constructed accumulator state (`AudioProcessor::new`
starts with empty buffers, zero silence count and no speech). -/
def initState : ProcState :=
  { accumulated := [], silence_count := 0, has_speech := false, pre_roll := [] }

/-- The `ProcConfig` computed by `AudioProcessor::new` from durations in
seconds and millisecond settings: `min_samples = 16000 * min_duration`,
`max_samples = 16000 * max_duration` (f32 multiply then truncating cast,
modelled as the floor of the exact product for nonnegative durations),
`silence_pause_chunks = silence_pause_ms / max(buffer_ms, 1)`. -/
def ProcConfig.new (min_duration_secs max_duration_secs : ℚ)
    (silence_pause_ms buffer_ms : ℕ) (speech_threshold : ℚ) : ProcConfig :=
  { min_samples := (⌊16000 * min_duration_secs⌋).toNat
    max_samples := (⌊16000 * max_duration_secs⌋).toNat
    silence_pause_chunks := silence_pause_ms / max buffer_ms 1
    speech_threshold := speech_threshold }

/-- Sum of squared samples, the numerator of the RMS computation in
`AudioProcessor::rms`. -/
def sumSq (samples : List ℚ) : ℚ :=
  (samples.map (fun s => s * s)).sum

/-- The VAD decision `rms(samples) >= speech_threshold` of
`AudioProcessor::feed`, expressed in exact arithmetic without a square
root: for a positive threshold t and n > 0 samples,
`sqrt(sumSq/n) >= t` iff `t^2 * n <= sumSq`; `rms [] = 0`. -/
def isSpeechEnergy (samples : List ℚ) (t : ℚ) : Bool :=
  if t ≤ 0 then true
  else if samples.length = 0 then false
  else decide (t ^ 2 * (samples.length : ℚ) ≤ sumSq samples)

/-- Peak absolute sample of a window. -/
def peakAbs (l : List ℚ) : ℚ :=
  (l.map (fun s => |s|)).foldr max 0

/-- Modelled from the spec: `AudioBuffer::peak_normalize` of the external
`voxtral_mini_realtime` crate (not part of this repository) — "scale a
window so its largest absolute sample equals 0.95" (glossary); a silent
window is left unchanged.  Scaling is pointwise, so the sample count is
preserved. -/
def peakNormalize (target : ℚ) (l : List ℚ) : List ℚ :=
  let p := peakAbs l
  if p = 0 then l else l.map (fun s => s * (target / p))

/-- Embedding of `AudioProcessor::take_buffer`: drain up to `max_samples` accumulated
samples (leaving any remainder in `accumulated`), reset the VAD state,
and return the drained window peak-normalized to 0.95 at 16 kHz. -/
def takeBuffer (cfg : ProcConfig) (s : ProcState) : AudioBuffer × ProcState :=
  let take_len := min s.accumulated.length cfg.max_samples
  (⟨peakNormalize (19/20) (s.accumulated.take take_len), 16000⟩,
   { accumulated := s.accumulated.drop take_len
     silence_count := 0
     has_speech := false
     pre_roll := [] })

/-- The two yield checks at the bottom of `AudioProcessor::feed`
(processor.rs lines 130–143): the hard cap at `max_samples`, then the
natural-pause yield (`has_speech` and at least `min_samples` and the
silence pause reached). -/
def checkYield (cfg : ProcConfig) (s : ProcState) : Option AudioBuffer × ProcState :=
  if cfg.max_samples ≤ s.accumulated.length then
    let p := takeBuffer cfg s
    (some p.1, p.2)
  else if s.has_speech = true ∧ cfg.min_samples ≤ s.accumulated.length ∧
      cfg.silence_pause_chunks ≤ s.silence_count then
    let p := takeBuffer cfg s
    (some p.1, p.2)
  else (none, s)

/-- Embedding of `AudioProcessor::feed`.  Here `resample` is the external crate's
`resample_to_16k`, which may fail (`Option`); it is consulted exactly
when the chunk's sample rate differs from 16000, and on failure `feed`
returns `none` leaving the state untouched.  Otherwise the RMS VAD
decision routes the chunk into the speech branch (pre-roll prepend,
flag set, counter reset, append) or the silence branch (counter
increment; append with an early natural-pause yield while speech is
active, else the chunk replaces the pre-roll), followed by the common
yield checks. -/
def feed (resample : List ℚ → ℕ → Option (List ℚ)) (cfg : ProcConfig)
    (s : ProcState) (chunk : AudioChunk) : Option AudioBuffer × ProcState :=
  match (if chunk.sample_rate ≠ 16000
         then resample chunk.samples chunk.sample_rate
         else some chunk.samples) with
  | none => (none, s)
  | some samples =>
    if isSpeechEnergy samples cfg.speech_threshold then
      let s1 := if s.has_speech = false ∧ s.pre_roll ≠ [] then
          { s with accumulated := s.accumulated ++ s.pre_roll, pre_roll := [] }
        else s
      let s2 := { s1 with has_speech := true, silence_count := 0,
                          accumulated := s1.accumulated ++ samples }
      checkYield cfg s2
    else
      let s1 := { s with silence_count := s.silence_count + 1 }
      if s1.has_speech = true then
        let s2 := { s1 with accumulated := s1.accumulated ++ samples }
        if cfg.silence_pause_chunks ≤ s2.silence_count ∧
            cfg.min_samples ≤ s2.accumulated.length then
          let p := takeBuffer cfg s2
          (some p.1, p.2)
        else checkYield cfg s2
      else
        checkYield cfg { s1 with pre_roll := samples }

/-- Embedding of `AudioProcessor::flush`: yield the accumulation iff it is nonempty
and speech was seen, otherwise reset and return `none`. -/
def flush (cfg : ProcConfig) (s : ProcState) : Option AudioBuffer × ProcState :=
  if s.accumulated = [] ∨ s.has_speech = false then (none, initState)
  else
    let p := takeBuffer cfg s
    (some p.1, p.2)

/-- One accumulator operation, for quantifying over operation
sequences: `feed` with a chunk, `flush`, or `reset`. -/
inductive ProcOp where
  | feed (chunk : AudioChunk)
  | flush
  | reset
  deriving DecidableEq, Repr

/-- State reached after one operation (the yielded buffer, if any, is
discarded; `AudioProcessor::reset` clears everything). -/
def runOp (resample : List ℚ → ℕ → Option (List ℚ)) (cfg : ProcConfig)
    (s : ProcState) : ProcOp → ProcState
  | ProcOp.feed chunk => (feed resample cfg s chunk).2
  | ProcOp.flush => (flush cfg s).2
  | ProcOp.reset => initState

/-- State after a sequence of operations starting from the freshly
constructed processor. -/
def runOps (resample : List ℚ → ℕ → Option (List ℚ)) (cfg : ProcConfig)
    (ops : List ProcOp) : ProcState :=
  ops.foldl (fun s op => runOp resample cfg s op) initState

/-- The `AccumulatorState` invariant stated by the spec:
`accumulated.len() ≤ max_samples`; if `has_speech = false` then
`accumulated` is empty; `pre_roll` is non-empty only while
`has_speech = false`. -/
def procInv (cfg : ProcConfig) (s : ProcState) : Prop :=
  s.accumulated.length ≤ cfg.max_samples ∧
  (s.has_speech = false → s.accumulated = []) ∧
  (s.pre_roll ≠ [] → s.has_speech = false)

instance (cfg : ProcConfig) (s : ProcState) : Decidable (procInv cfg s) := by
  unfold procInv; infer_instance

/-! ## Streaming decoder (`voxtral/streaming.rs`)

The quantized model, the tokenizer and the mel front end live in the
external `voxtral_mini_realtime` crate and are embedded as oracle
functions (`StreamExt`).  The autoregressive structure, the prefix
construction, the incremental partial emission and the final decode are
embedded from the source. -/

/-- The constant `PREFIX_LEN` in streaming.rs: length of the `[BOS, PAD, ...]` textual
prefix (38, architectural). -/
def PFX_LEN : ℕ := 38

/-- The constant `BOS_TOKEN` in streaming.rs. -/
def BOS_TOKEN : ℤ := 1

/-- The constant `STREAMING_PAD` in streaming.rs. -/
def STREAMING_PAD : ℤ := 32

/-- The constant `TEXT_TOKEN_OFFSET` in streaming.rs: ids below 1000 are control
tokens and are filtered from decoded output. -/
def TEXT_TOKEN_OFFSET : ℤ := 1000

/-- The textual prefix `[BOS, PAD, PAD, ..., PAD]` of length `PFX_LEN`
built at the top of `decode_streaming`. -/
def pfxTokens : List ℤ :=
  BOS_TOKEN :: List.replicate (PFX_LEN - 1) STREAMING_PAD

/-- Rust's `str::trim`: remove leading and trailing whitespace.  Strings
are modelled as `List Char`. -/
def trim (l : List Char) : List Char :=
  ((l.dropWhile Char.isWhitespace).reverse.dropWhile Char.isWhitespace).reverse

/-- Mutable state of the decode loop in `decode_streaming`: the
`generated` token vector (prefix included), the accumulated text-token
ids, `last_decoded_len`, and the list of strings passed to `on_partial`
so far (in emission order). -/
structure LoopState where
  generated : List ℤ
  textTokens : List ℕ
  lastLen : ℕ
  emitted : List (List Char)
  deriving DecidableEq, Repr

/-- External-crate behavior consumed by `StreamingTranscriber`
(`voxtral_mini_realtime` is an opaque dependency of the repository):
`needs_chunking`/`chunk_audio` (keyed on sample count resp. samples),
mel-front-end success (`compute_mel` fails iff zero mel frames), the
encoder's `seq_len` for a chunk's mel, the argmax of the prefill pass
(`firstTok`), the argmax of one decode step given the tokens generated
so far (`nextTok` — the KV cache is a function of the processed
history), and `tokenizer.decode` which may fail. -/
structure StreamExt where
  needsChunking : ℕ → Bool
  chunkAudio : List ℚ → List (List ℚ)
  melOk : List ℚ → Bool
  seqLen : List ℚ → ℕ
  firstTok : List ℚ → ℤ
  nextTok : List ℚ → List ℤ → ℤ
  decode : List ℕ → Option (List Char)

/-- One token-emission step of `decode_streaming`: push the token into
`generated`; if it is a text token (`>= TEXT_TOKEN_OFFSET`), append it
to the text-token list and decode; when the trimmed decode strictly
grows past `last_decoded_len`, record it and fire `on_partial`.
The first-predicted-token block (streaming.rs lines 188–198) checks
`!trimmed.is_empty()` instead, which coincides with strict growth past
`last_decoded_len = 0`. -/
def emitStep (dec : List ℕ → Option (List Char)) (st : LoopState) (tok : ℤ) :
    LoopState :=
  let stg := { st with generated := st.generated ++ [tok] }
  if TEXT_TOKEN_OFFSET ≤ tok then
    let tts := stg.textTokens ++ [tok.toNat]
    match dec tts with
    | some decoded =>
      let t := trim decoded
      if stg.lastLen < t.length then
        { stg with textTokens := tts, lastLen := t.length,
                   emitted := stg.emitted ++ [t] }
      else { stg with textTokens := tts }
    | none => { stg with textTokens := tts }
  else stg

/-- The autoregressive decode loop (`for pos in (PREFIX_LEN + 1)..seq_len`),
indexed by the remaining iteration count: each iteration asks the model
for the next token (a function of the generated history) and runs the
emission step. -/
def decodeLoop (ext : StreamExt) (cs : List ℚ) : ℕ → LoopState → LoopState
  | 0, st => st
  | Nat.succ k, st =>
    let next := ext.nextTok cs st.generated
    decodeLoop ext cs k (emitStep ext.decode st next)

/-- The whole generation phase of `decode_streaming` for one chunk whose
encoded `seq_len` is at least `PFX_LEN`: prefill predicts the first
token from the last prefix position, then the loop runs for positions
`PFX_LEN + 1 .. seq_len - 1` (i.e. `seq_len - PFX_LEN - 1` iterations). -/
def decodeRun (ext : StreamExt) (cs : List ℚ) : LoopState :=
  let st0 : LoopState :=
    { generated := pfxTokens, textTokens := [], lastLen := 0, emitted := [] }
  let st1 := emitStep ext.decode st0 (ext.firstTok cs)
  decodeLoop ext cs (ext.seqLen cs - (PFX_LEN + 1)) st1

/-- Embedding of `decode_streaming` for one chunk: returns the final decoded text
(or a decode error) together with the list of partial strings passed to
`on_partial`.  If `seq_len < PFX_LEN` it returns an empty transcript
with no partials and no error.  The final text decodes the text-token
subset of all generated tokens after the prefix. -/
def decodeStreaming (ext : StreamExt) (cs : List ℚ) :
    Except Unit (List Char) × List (List Char) :=
  if ext.seqLen cs < PFX_LEN then (Except.ok [], [])
  else
    let st := decodeRun ext cs
    let textToks :=
      ((st.generated.drop PFX_LEN).filter (fun t => TEXT_TOKEN_OFFSET ≤ t)).map
        Int.toNat
    match ext.decode textToks with
    | some t => (Except.ok t, st.emitted)
    | none => (Except.error (), st.emitted)

/-- The `TranscriptResult` constructed by `StreamingTranscriber::transcribe`
(streaming.rs lines 123–129): text, language (always "auto"), finality
flag and the optional real-time factor.  The wall-clock timestamp and
the numeric value of `rtf` are not modelled; `rtf` is `some` exactly
when `audio_duration_secs > 0.0`, i.e. exactly when the input has at
least one sample.  (`voxtral/types.rs` as snapshotted lacks the `rtf`
field; the embedding follows the construction site in streaming.rs.) -/
structure TranscriptResult where
  text : List Char
  language : List Char
  is_final : Bool
  rtf : Option Unit
  deriving DecidableEq, Repr

/-- The per-chunk loop of `StreamingTranscriber::transcribe`: for each
chunk, compute the mel (failing if it has zero frames), run
`decode_streaming` (propagating its error), and collect the trimmed
non-empty chunk texts.  Partials emitted before a failure are kept
(the callback has already fired). -/
def transcribeChunks (ext : StreamExt) :
    List (List ℚ) → List (List Char) → List (List Char) →
    Except Unit (List (List Char)) × List (List Char)
  | [], texts, emitted => (Except.ok texts, emitted)
  | cs :: rest, texts, emitted =>
    if ext.melOk cs then
      match decodeStreaming ext cs with
      | (Except.ok t, em) =>
        let texts2 := if trim t ≠ [] then texts ++ [trim t] else texts
        transcribeChunks ext rest texts2 (emitted ++ em)
      | (Except.error e, em) => (Except.error e, emitted ++ em)
    else (Except.error (), emitted)

/-- Embedding of `StreamingTranscriber::transcribe`: split the audio into chunks when
`needs_chunking` says so (otherwise one chunk holding all samples),
transcribe each chunk, join the collected texts with single spaces, and
return a final result with `language = "auto"`, `is_final = true` and
`rtf` present iff the audio duration is positive.  The second component
is the full sequence of strings passed to `on_partial`. -/
def transcribe (ext : StreamExt) (audio : AudioBuffer) :
    Except Unit TranscriptResult × List (List Char) :=
  let chunks := if ext.needsChunking audio.samples.length
    then ext.chunkAudio audio.samples else [audio.samples]
  match transcribeChunks ext chunks [] [] with
  | (Except.ok texts, em) =>
    (Except.ok
      { text := List.intercalate [' '] texts
        language := "auto".toList
        is_final := true
        rtf := if 0 < audio.samples.length then some () else none }, em)
  | (Except.error e, em) => (Except.error e, em)

/-! ## Capture sample conversion (`audio/capture.rs`)

The I16 and I32 device-format paths convert raw integer samples to f32
by dividing by the format's `MAX` (`s as f32 / i16::MAX as f32`,
`s as f32 / i32::MAX as f32`). -/

/-- The I16 conversion `s as f32 / i16::MAX as f32` of
`AudioCapture::start`.  Both the sample (|s| ≤ 32768 < 2^24) and the
divisor 32767 are exactly representable in f32, so the exact rational
quotient is faithful up to one final rounding, which cannot move the
quotient across 1 in magnitude for any i16 input (the distance of the
exact quotient from ±1 is either 0 or ≥ 1/32767 ≫ 2⁻²⁴). -/
def i16SampleToF32 (s : ℤ) : ℚ := (s : ℚ) / 32767

/-- The I32 conversion `s as f32 / i32::MAX as f32` of
`AudioCapture::start`.  In f32, the literal divisor `i32::MAX as f32`
rounds to 2^31 = 2147483648 exactly; the argument is the f32 value of
the raw sample (`s as f32`), whose magnitude after rounding is at most
2^31 for every i32. -/
def i32SampleToF32 (x : ℚ) : ℚ := x / 2147483648


/-! ## Helper lemmas -/

/-- Normalization scales pointwise and so preserves the sample count. -/
theorem peakNormalize_length (t : ℚ) (l : List ℚ) :
    (peakNormalize t l).length = l.length := by
  by_cases h : peakAbs l = 0 <;> simp [peakNormalize, h]

/-- The buffer produced by `take_buffer` is at 16 kHz and holds
`min(accumulated.len, max_samples)` samples. -/
theorem takeBuffer_buffer (cfg : ProcConfig) (s : ProcState) :
    (takeBuffer cfg s).1.sample_rate = 16000 ∧
    (takeBuffer cfg s).1.samples.length = min s.accumulated.length cfg.max_samples := by
  refine ⟨rfl, ?_⟩
  simp [takeBuffer, peakNormalize_length, List.length_take]

/-- When the accumulation fits under `max_samples`, `take_buffer` drains
everything and leaves the freshly-reset state. -/
theorem takeBuffer_state (cfg : ProcConfig) (s : ProcState)
    (h : s.accumulated.length ≤ cfg.max_samples) :
    (takeBuffer cfg s).2 = initState := by
  simp [takeBuffer, initState, Nat.min_eq_left h, List.drop_length]

/-- A yield coming out of `checkYield` is a `take_buffer` of the current
state, and happens only at the hard cap or above `min_samples`. -/
theorem checkYield_some (cfg : ProcConfig) (s : ProcState) (b : AudioBuffer)
    (s2 : ProcState) (h : checkYield cfg s = (some b, s2)) :
    b = (takeBuffer cfg s).1 ∧
    (cfg.max_samples ≤ s.accumulated.length ∨
     cfg.min_samples ≤ s.accumulated.length) := by
  unfold checkYield at h
  split at h
  · next hc => exact ⟨by injection h with h1 _; exact (Option.some.inj h1).symm, Or.inl hc⟩
  · split at h
    · next hc => exact ⟨by injection h with h1 _; exact (Option.some.inj h1).symm, Or.inr hc.2.1⟩
    · exact absurd h (by simp)

/-! ## C7: resampler failure is atomic -/

/-- C7 (confirmed): for every chunk whose sample rate differs from
16000, if resampling fails then `feed` returns `None` and the
accumulator state is exactly what it was before the call. -/
theorem c7_resample_failure_atomic (resample : List ℚ → ℕ → Option (List ℚ))
    (cfg : ProcConfig) (s : ProcState) (chunk : AudioChunk)
    (hrate : chunk.sample_rate ≠ 16000)
    (hfail : resample chunk.samples chunk.sample_rate = none) :
    feed resample cfg s chunk = (none, s) := by
  simp [feed, hrate, hfail]

/-- Witness for C7 at a concrete 8 kHz chunk and an always-failing
resampler. -/
theorem c7_resample_failure_atomic_witness :
    feed (fun _ _ => none) ⟨0, 2, 2, 0⟩ initState ⟨[1], 8000⟩ =
      (none, initState) :=
  c7_resample_failure_atomic (fun _ _ => none) ⟨0, 2, 2, 0⟩ initState
    ⟨[1], 8000⟩ (by decide) rfl

/-! ## C6: short encodings produce an empty transcript, no partials -/

/-- C6 (confirmed): if the encoded `seq_len` of a chunk is below
`PFX_LEN = 38`, `decode_streaming` returns an empty transcript, emits
no partials, and does not error. -/
theorem c6_short_seq_empty (ext : StreamExt) (cs : List ℚ)
    (h : ext.seqLen cs < PFX_LEN) :
    decodeStreaming ext cs = (Except.ok [], []) := by
  simp [decodeStreaming, h]

/-- Witness for C6 at a concrete oracle with `seq_len = 0`. -/
theorem c6_short_seq_empty_witness :
    (⟨fun _ => false, fun _ => [], fun _ => true, fun _ => 0,
      fun _ => 0, fun _ _ => 0, fun _ => some []⟩ : StreamExt).seqLen [] < PFX_LEN ∧
    decodeStreaming
      (⟨fun _ => false, fun _ => [], fun _ => true, fun _ => 0,
        fun _ => 0, fun _ _ => 0, fun _ => some []⟩ : StreamExt) [] =
      (Except.ok [], []) :=
  ⟨by decide, c6_short_seq_empty _ _ (by decide)⟩

/-! ## C9: token count of the decode loop -/

/-- Every emission step appends exactly one token to `generated`. -/
theorem emitStep_generated (dec : List ℕ → Option (List Char))
    (st : LoopState) (tok : ℤ) :
    (emitStep dec st tok).generated = st.generated ++ [tok] := by
  unfold emitStep
  dsimp only
  split
  · split
    · split <;> rfl
    · rfl
  · rfl

/-- The decode loop appends one token per iteration. -/
theorem decodeLoop_generated_length (ext : StreamExt) (cs : List ℚ) :
    ∀ (k : ℕ) (st : LoopState),
      (decodeLoop ext cs k st).generated.length = st.generated.length + k := by
  intro k
  induction k with
  | zero => intro st; simp [decodeLoop]
  | succ n ih =>
    intro st
    rw [decodeLoop, ih, emitStep_generated]
    simp
    omega

/-- The prefix has exactly `PFX_LEN` tokens. -/
theorem pfxTokens_length : pfxTokens.length = PFX_LEN := by
  simp [pfxTokens, PFX_LEN]

/-- C9 (confirmed): with `seq_len ≥ 38`, the generation phase produces
exactly `max 1 (seq_len - 38)` tokens after the 38-token prefix: one
from the prefill pass, plus one per iteration of the autoregressive
loop over positions `39 .. seq_len - 1` (zero iterations when
`seq_len = 38`). -/
theorem c9_generated_token_count (ext : StreamExt) (cs : List ℚ)
    (h : PFX_LEN ≤ ext.seqLen cs) :
    (decodeRun ext cs).generated.length =
      PFX_LEN + max 1 (ext.seqLen cs - PFX_LEN) := by
  unfold decodeRun
  rw [decodeLoop_generated_length, emitStep_generated]
  simp [pfxTokens_length]
  have h38 : PFX_LEN = 38 := rfl
  omega

/-- Witness for C9 at a concrete oracle with `seq_len = 38` (the
boundary: exactly one predicted token, zero loop iterations). -/
theorem c9_generated_token_count_witness :
    PFX_LEN ≤ (⟨fun _ => false, fun _ => [], fun _ => true, fun _ => 38,
      fun _ => 0, fun _ _ => 0, fun _ => some []⟩ : StreamExt).seqLen [] ∧
    (decodeRun (⟨fun _ => false, fun _ => [], fun _ => true, fun _ => 38,
      fun _ => 0, fun _ _ => 0, fun _ => some []⟩ : StreamExt) []).generated.length =
      PFX_LEN + max 1 ((⟨fun _ => false, fun _ => [], fun _ => true, fun _ => 38,
        fun _ => 0, fun _ _ => 0, fun _ => some []⟩ : StreamExt).seqLen [] - PFX_LEN) :=
  ⟨by decide, c9_generated_token_count _ _ (by decide)⟩

/-! ## C8: integer sample conversion bounds -/

/-- C8 counterexample: the I16 path divides by `i16::MAX = 32767`, so
the minimum raw sample `-32768` converts to a value strictly below -1;
the claimed interval `[-1, 1]` does not hold for every raw sample. -/
theorem c8_i16_min_below_neg_one : i16SampleToF32 (-32768) < -1 := by
  norm_num [i16SampleToF32]

/-- C8 (corrected): the I16-converted sample always lies in
`[-32768/32767, 1]`, and lies in `[-1, 1]` for every raw sample except
`i16::MIN = -32768`; the I32-converted sample (division by the f32
value of `i32::MAX`, which rounds to 2^31, applied to the f32-rounded
raw sample of magnitude at most 2^31) always lies in `[-1, 1]`. -/
theorem c8_conversion_bounds :
    (∀ s : ℤ, -32768 ≤ s → s ≤ 32767 →
      -(32768/32767 : ℚ) ≤ i16SampleToF32 s ∧ i16SampleToF32 s ≤ 1 ∧
      (-32768 < s → -1 ≤ i16SampleToF32 s)) ∧
    (∀ x : ℚ, -2147483648 ≤ x → x ≤ 2147483648 →
      -1 ≤ i32SampleToF32 x ∧ i32SampleToF32 x ≤ 1) := by
  constructor
  · intro s h1 h2
    have hs1 : (-32768 : ℚ) ≤ (s : ℚ) := by exact_mod_cast h1
    have hs2 : (s : ℚ) ≤ 32767 := by exact_mod_cast h2
    have he : i16SampleToF32 s = (s : ℚ) / 32767 := rfl
    refine ⟨?_, ?_, ?_⟩
    · rw [he]; linarith
    · rw [he]; linarith
    · intro h3
      have hs3 : (-32767 : ℚ) ≤ (s : ℚ) := by
        exact_mod_cast (by omega : (-32767 : ℤ) ≤ s)
      rw [he]; linarith
  · intro x h1 h2
    have he : i32SampleToF32 x = x / 2147483648 := rfl
    exact ⟨by rw [he]; linarith, by rw [he]; linarith⟩

/-- Witness for C8 at concrete sample values. -/
theorem c8_conversion_bounds_witness :
    (-(32768/32767 : ℚ) ≤ i16SampleToF32 12345 ∧ i16SampleToF32 12345 ≤ 1 ∧
      ((-32768 : ℤ) < 12345 → -1 ≤ i16SampleToF32 12345)) ∧
    (-1 ≤ i32SampleToF32 0 ∧ i32SampleToF32 0 ≤ 1) :=
  ⟨c8_conversion_bounds.1 12345 (by decide) (by decide),
   c8_conversion_bounds.2 0 (by decide) (by decide)⟩

/-! ## C1: the accumulator state invariant -/

/-- Strengthened inductive invariant for the accumulator under a
uniform 16 kHz chunk length `c` dividing `max_samples`: the spec's
invariant plus divisibility of the accumulation length and strictness
of the bound away from yields. -/
def procInvAux (cfg : ProcConfig) (c : ℕ) (s : ProcState) : Prop :=
  (s.has_speech = false → s.accumulated = []) ∧
  (s.pre_roll ≠ [] → s.has_speech = false) ∧
  (s.pre_roll = [] ∨ s.pre_roll.length = c) ∧
  c ∣ s.accumulated.length ∧
  (s.accumulated = [] ∨ s.accumulated.length < cfg.max_samples)

/-- The fresh state satisfies the strengthened invariant. -/
theorem procInvAux_init (cfg : ProcConfig) (c : ℕ) : procInvAux cfg c initState := by
  refine ⟨fun _ => rfl, fun h => absurd rfl h, Or.inl rfl, ?_, Or.inl rfl⟩
  simp [initState]

/-- The strengthened invariant implies the spec's invariant. -/
theorem procInvAux_procInv (cfg : ProcConfig) (c : ℕ) (s : ProcState)
    (h : procInvAux cfg c s) : procInv cfg s := by
  obtain ⟨h1, h2, _, _, h5⟩ := h
  refine ⟨?_, h1, h2⟩
  rcases h5 with h | h
  · simp [h]
  · omega

/-- If `c` divides both `a` and `m` and `a < m`, then `a + c ≤ m`. -/
theorem dvd_lt_add_le {c a m : ℕ} (_hc : 0 < c) (h1 : c ∣ a) (h2 : c ∣ m)
    (h : a < m) : a + c ≤ m := by
  have hd : c ∣ (m - a) := Nat.dvd_sub' h2 h1
  have hp : 0 < m - a := by omega
  have := Nat.le_of_dvd hp hd
  omega

/-- The function `checkYield` preserves the strengthened invariant provided the
accumulation fits under `max_samples` going in (yields then fully drain
and leave the fresh state; a non-yield means the hard cap was not
reached). -/
theorem checkYield_invAux (cfg : ProcConfig) (c : ℕ) (s : ProcState)
    (h1 : s.has_speech = false → s.accumulated = [])
    (h2 : s.pre_roll ≠ [] → s.has_speech = false)
    (h3 : s.pre_roll = [] ∨ s.pre_roll.length = c)
    (h4 : c ∣ s.accumulated.length)
    (h5 : s.accumulated.length ≤ cfg.max_samples) :
    procInvAux cfg c (checkYield cfg s).2 := by
  unfold checkYield
  split
  · dsimp only
    rw [takeBuffer_state cfg s h5]
    exact procInvAux_init cfg c
  · rename_i hcap
    split
    · dsimp only
      rw [takeBuffer_state cfg s h5]
      exact procInvAux_init cfg c
    · dsimp only
      exact ⟨h1, h2, h3, h4, Or.inr (by omega)⟩

/-- Feeding a 16 kHz chunk of length `c` preserves the strengthened
invariant when `c` divides `max_samples` and `2c ≤ max_samples`. -/
theorem feed_invAux (resample : List ℚ → ℕ → Option (List ℚ))
    (cfg : ProcConfig) (c : ℕ) (hc : 0 < c) (hdvd : c ∣ cfg.max_samples)
    (h2c : 2 * c ≤ cfg.max_samples) (s : ProcState) (chunk : AudioChunk)
    (hrate : chunk.sample_rate = 16000) (hlen : chunk.samples.length = c)
    (hs : procInvAux cfg c s) :
    procInvAux cfg c (feed resample cfg s chunk).2 := by
  obtain ⟨i1, i2, i3, i4, i5⟩ := hs
  unfold feed
  have hscrut : (if chunk.sample_rate ≠ 16000
      then resample chunk.samples chunk.sample_rate
      else some chunk.samples) = some chunk.samples := by simp [hrate]
  rw [hscrut]
  dsimp only
  split
  · -- speech branch
    by_cases hpre : s.has_speech = false ∧ s.pre_roll ≠ []
    · rw [if_pos hpre]
      dsimp only
      have hacc : s.accumulated = [] := i1 hpre.1
      have hplen : s.pre_roll.length = c := by
        rcases i3 with h | h
        · exact absurd h hpre.2
        · exact h
      apply checkYield_invAux
      · intro h; simp at h
      · intro hne; exact absurd rfl hne
      · exact Or.inl rfl
      · simp only [List.length_append, hacc, hplen, hlen, List.length_nil]
        exact ⟨2, by ring⟩
      · simp only [List.length_append, hacc, hplen, hlen, List.length_nil]
        omega
    · rw [if_neg hpre]
      by_cases hhs : s.has_speech = false
      · have hpr : s.pre_roll = [] := by
          by_contra hne
          exact hpre ⟨hhs, hne⟩
        have hacc : s.accumulated = [] := i1 hhs
        apply checkYield_invAux
        · intro h; simp at h
        · intro hne; exact absurd hpr hne
        · exact Or.inl hpr
        · simp [hacc, hlen]
        · simp only [List.length_append, hacc, hlen, List.length_nil]
          omega
      · have hhs1 : s.has_speech = true := by
          revert hhs; cases s.has_speech <;> simp
        have hpr : s.pre_roll = [] := by
          by_contra hne
          rw [i2 hne] at hhs1
          exact absurd hhs1 (by decide)
        have hbound : s.accumulated.length + c ≤ cfg.max_samples := by
          rcases i5 with h | h
          · simp [h]; omega
          · exact dvd_lt_add_le hc i4 hdvd h
        apply checkYield_invAux
        · intro h; simp at h
        · intro hne; exact absurd hpr hne
        · exact Or.inl hpr
        · simp only [List.length_append, hlen]
          exact Nat.dvd_add i4 dvd_rfl
        · simp only [List.length_append, hlen]
          exact hbound
  · -- silence branch
    split
    · -- still accumulating: speech was seen
      rename_i hhs1
      have hpr : s.pre_roll = [] := by
        by_contra hne
        rw [i2 hne] at hhs1
        exact absurd hhs1 (by decide)
      have hbound : s.accumulated.length + c ≤ cfg.max_samples := by
        rcases i5 with h | h
        · simp [h]; omega
        · exact dvd_lt_add_le hc i4 hdvd h
      have hfit : (s.accumulated ++ chunk.samples).length ≤ cfg.max_samples := by
        simp only [List.length_append, hlen]
        exact hbound
      split
      · -- early natural-pause yield
        dsimp only
        rw [takeBuffer_state _ _ hfit]
        exact procInvAux_init cfg c
      · apply checkYield_invAux
        · intro h; simp at h; simp [h] at hhs1
        · intro hne; exact absurd hpr hne
        · exact Or.inl hpr
        · simp only [List.length_append, hlen]
          exact Nat.dvd_add i4 dvd_rfl
        · exact hfit
    · -- pure silence before any speech: chunk becomes the pre-roll
      rename_i hhs1
      have hhs0 : s.has_speech = false := by
        revert hhs1; cases s.has_speech <;> simp
      have hacc : s.accumulated = [] := i1 hhs0
      apply checkYield_invAux
      · intro _; exact hacc
      · intro _; exact hhs0
      · exact Or.inr hlen
      · simp [hacc]
      · simp [hacc]

/-- Flushing preserves the strengthened invariant. -/
theorem flush_invAux (cfg : ProcConfig) (c : ℕ) (s : ProcState)
    (hs : procInvAux cfg c s) : procInvAux cfg c (flush cfg s).2 := by
  obtain ⟨_, _, _, _, i5⟩ := hs
  unfold flush
  split
  · exact procInvAux_init cfg c
  · rename_i hcond
    dsimp only
    have hne : s.accumulated ≠ [] := fun h => hcond (Or.inl h)
    have hlt : s.accumulated.length < cfg.max_samples := by
      rcases i5 with h | h
      · exact absurd h hne
      · exact h
    rw [takeBuffer_state cfg s (le_of_lt hlt)]
    exact procInvAux_init cfg c

/-- Any single operation preserves the strengthened invariant when the
chunk (if any) is 16 kHz of length `c`. -/
theorem runOp_invAux (resample : List ℚ → ℕ → Option (List ℚ))
    (cfg : ProcConfig) (c : ℕ) (hc : 0 < c) (hdvd : c ∣ cfg.max_samples)
    (h2c : 2 * c ≤ cfg.max_samples) (s : ProcState) (op : ProcOp)
    (hop : ∀ chunk, op = ProcOp.feed chunk →
      chunk.sample_rate = 16000 ∧ chunk.samples.length = c)
    (hs : procInvAux cfg c s) :
    procInvAux cfg c (runOp resample cfg s op) := by
  cases op with
  | feed chunk =>
    obtain ⟨h1, h2⟩ := hop chunk rfl
    exact feed_invAux resample cfg c hc hdvd h2c s chunk h1 h2 hs
  | flush => exact flush_invAux cfg c s hs
  | reset => exact procInvAux_init cfg c

/-- Folding a sequence of invariant-respecting operations preserves the
strengthened invariant. -/
theorem foldOps_invAux (resample : List ℚ → ℕ → Option (List ℚ))
    (cfg : ProcConfig) (c : ℕ) (hc : 0 < c) (hdvd : c ∣ cfg.max_samples)
    (h2c : 2 * c ≤ cfg.max_samples) :
    ∀ (ops : List ProcOp) (s : ProcState), procInvAux cfg c s →
      (∀ chunk, ProcOp.feed chunk ∈ ops →
        chunk.sample_rate = 16000 ∧ chunk.samples.length = c) →
      procInvAux cfg c (ops.foldl (fun s op => runOp resample cfg s op) s) := by
  intro ops
  induction ops with
  | nil => intro s hs _; exact hs
  | cons op rest ih =>
    intro s hs hops
    rw [List.foldl_cons]
    apply ih
    · exact runOp_invAux resample cfg c hc hdvd h2c s op
        (fun chunk hop => hops chunk (hop ▸ List.mem_cons_self op rest)) hs
    · intro chunk hmem
      exact hops chunk (List.mem_cons_of_mem op hmem)

/-- C1 (corrected): the spec's `AccumulatorState` invariant holds after
every sequence of `feed`/`flush`/`reset` operations from the fresh
state, **provided** all fed chunks are 16 kHz chunks of one common
length `c` with `c ∣ max_samples` and `2c ≤ max_samples` (as in
production: 500 ms chunks of 8000 samples, `max_samples = 480000`).
With chunks of arbitrary length the invariant is false: a yield at the
hard cap drains only `max_samples` samples and leaves the overflow tail
accumulated with `has_speech = false` (see the counterexample). -/
theorem c1_invariant_uniform_chunks (resample : List ℚ → ℕ → Option (List ℚ))
    (cfg : ProcConfig) (c : ℕ) (hc : 0 < c) (hdvd : c ∣ cfg.max_samples)
    (h2c : 2 * c ≤ cfg.max_samples) (ops : List ProcOp)
    (hops : ∀ chunk, ProcOp.feed chunk ∈ ops →
      chunk.sample_rate = 16000 ∧ chunk.samples.length = c) :
    procInv cfg (runOps resample cfg ops) :=
  procInvAux_procInv cfg c _
    (foldOps_invAux resample cfg c hc hdvd h2c ops initState
      (procInvAux_init cfg c) hops)

/-- Witness for C1 at a concrete configuration and operation list. -/
theorem c1_invariant_uniform_chunks_witness :
    procInv ⟨0, 2, 0, 0⟩
      (runOps (fun _ _ => none) ⟨0, 2, 0, 0⟩
        [ProcOp.feed ⟨[0], 16000⟩, ProcOp.flush]) :=
  c1_invariant_uniform_chunks (fun _ _ => none) ⟨0, 2, 0, 0⟩ 1
    (by decide) (by decide) (by decide) _
    (by
      intro chunk h
      simp only [List.mem_cons, List.not_mem_nil, or_false] at h
      rcases h with h | h
      · cases h; exact ⟨rfl, rfl⟩
      · cases h)

/-- C1 counterexample: with the claim's arbitrary-length chunks the
invariant fails.  One speech chunk of 3 samples against
`max_samples = 2` makes `feed` yield at the hard cap, draining only 2
samples: afterwards `accumulated = [0]` is non-empty while
`has_speech = false`. -/
theorem c1_arbitrary_chunk_violates_invariant :
    ¬ procInv ⟨0, 2, 2, 0⟩
      (runOps (fun _ _ => none) ⟨0, 2, 2, 0⟩ [ProcOp.feed ⟨[0, 0, 0], 16000⟩]) := by
  decide

/-! ## C2: behaviour of the hard-cap yield -/

/-- Evaluating `take_buffer` at or above the hard cap: the window is the first
`max_samples` accumulated samples (normalized) and the overflow tail
stays in `accumulated`. -/
theorem takeBuffer_overflow (cfg : ProcConfig) (s : ProcState)
    (h : cfg.max_samples ≤ s.accumulated.length) :
    takeBuffer cfg s =
      (⟨peakNormalize (19/20) (s.accumulated.take cfg.max_samples), 16000⟩,
       ⟨s.accumulated.drop cfg.max_samples, 0, false, []⟩) := by
  unfold takeBuffer
  rw [Nat.min_eq_right h]

/-- C2 (corrected): when a speech chunk pushes the accumulation to or
past `max_samples`, `feed` yields the first `max_samples` samples of
the accumulation (peak-normalized) — but the overflow tail beyond
`max_samples` is **not** dropped: it remains in `accumulated` (with
`has_speech` reset to `false`), so the next accumulation starts from
the leftover tail rather than from an empty buffer. -/
theorem c2_hard_cap_yield (resample : List ℚ → ℕ → Option (List ℚ))
    (cfg : ProcConfig) (s : ProcState) (chunk : AudioChunk)
    (hrate : chunk.sample_rate = 16000)
    (hspeech : isSpeechEnergy chunk.samples cfg.speech_threshold = true)
    (hhs : s.has_speech = true)
    (hover : cfg.max_samples ≤ s.accumulated.length + chunk.samples.length) :
    feed resample cfg s chunk =
      (some ⟨peakNormalize (19/20)
          ((s.accumulated ++ chunk.samples).take cfg.max_samples), 16000⟩,
       ⟨(s.accumulated ++ chunk.samples).drop cfg.max_samples, 0, false, []⟩) := by
  unfold feed
  have hscrut : (if chunk.sample_rate ≠ 16000
      then resample chunk.samples chunk.sample_rate
      else some chunk.samples) = some chunk.samples := by simp [hrate]
  rw [hscrut]
  dsimp only
  rw [hspeech]
  rw [if_pos rfl]
  rw [if_neg (by simp [hhs])]
  have hover2 : cfg.max_samples ≤ (s.accumulated ++ chunk.samples).length := by
    rw [List.length_append]
    exact hover
  unfold checkYield
  rw [if_pos hover2]
  dsimp only
  rw [takeBuffer_overflow cfg _ hover2]

/-- Witness for C2 at a concrete overflowing feed. -/
theorem c2_hard_cap_yield_witness :
    feed (fun _ _ => none) ⟨0, 2, 0, 0⟩ ⟨[0], 0, true, []⟩ ⟨[0, 0], 16000⟩ =
      (some ⟨peakNormalize (19/20) ((([0] : List ℚ) ++ [0, 0]).take 2), 16000⟩,
       ⟨(([0] : List ℚ) ++ [0, 0]).drop 2, 0, false, []⟩) :=
  c2_hard_cap_yield (fun _ _ => none) ⟨0, 2, 0, 0⟩ ⟨[0], 0, true, []⟩
    ⟨[0, 0], 16000⟩ rfl (by decide) rfl (by decide)

/-- C2 counterexample: the claim "the overflow tail beyond max_samples
is dropped within that yield, so that chunks fed after the yield start
a fresh, initially empty accumulation" is false.  A 3-sample speech
chunk against `max_samples = 2` makes `feed` yield, yet afterwards
`accumulated = [0]`: the tail persists into the next accumulation. -/
theorem c2_overflow_tail_not_dropped :
    (feed (fun _ _ => none) ⟨0, 2, 2, 0⟩ initState ⟨[0, 0, 0], 16000⟩).1.isSome = true ∧
    (feed (fun _ _ => none) ⟨0, 2, 2, 0⟩ initState ⟨[0, 0, 0], 16000⟩).2.accumulated = [0] := by
  decide

/-! ## C3: bounds on yielded buffers -/

/-- Every yield out of `feed` is a `take_buffer` of a state holding at
least `min_samples` (natural pause) or at least `max_samples` (hard
cap) accumulated samples. -/
theorem feed_some (resample : List ℚ → ℕ → Option (List ℚ))
    (cfg : ProcConfig) (s : ProcState) (chunk : AudioChunk)
    (b : AudioBuffer) (s2 : ProcState)
    (h : feed resample cfg s chunk = (some b, s2)) :
    ∃ st : ProcState, b = (takeBuffer cfg st).1 ∧
      (cfg.max_samples ≤ st.accumulated.length ∨
       cfg.min_samples ≤ st.accumulated.length) := by
  unfold feed at h
  cases hres : (if chunk.sample_rate ≠ 16000
      then resample chunk.samples chunk.sample_rate
      else some chunk.samples) with
  | none =>
    rw [hres] at h
    exact absurd h (by simp)
  | some samples =>
    rw [hres] at h
    dsimp only at h
    split at h
    · obtain ⟨hb, hcond⟩ := checkYield_some _ _ _ _ h
      exact ⟨_, hb, hcond⟩
    · split at h
      · split at h
        · rename_i hcond
          injection h with h1 _
          exact ⟨_, (Option.some.inj h1).symm, Or.inr hcond.2⟩
        · obtain ⟨hb, hcond⟩ := checkYield_some _ _ _ _ h
          exact ⟨_, hb, hcond⟩
      · obtain ⟨hb, hcond⟩ := checkYield_some _ _ _ _ h
        exact ⟨_, hb, hcond⟩

/-- C3 (corrected): provided `min_samples ≤ max_samples` and
`0 < max_samples` (true of every sensible configuration, in particular
the default 48000/480000), every buffer yielded by `feed` is at 16 kHz
with a sample count in `[min_samples, max_samples]`; a buffer yielded
by `flush` is at 16 kHz with a count in `[1, max_samples]` — but may be
shorter than `min_samples`, because `flush` has no minimum check (see
the counterexample). -/
theorem c3_yield_bounds (resample : List ℚ → ℕ → Option (List ℚ))
    (cfg : ProcConfig) (s : ProcState) (chunk : AudioChunk)
    (hmm : cfg.min_samples ≤ cfg.max_samples) (hmax : 0 < cfg.max_samples) :
    (∀ b s2, feed resample cfg s chunk = (some b, s2) →
      b.sample_rate = 16000 ∧ cfg.min_samples ≤ b.samples.length ∧
      b.samples.length ≤ cfg.max_samples) ∧
    (∀ b s2, flush cfg s = (some b, s2) →
      b.sample_rate = 16000 ∧ 1 ≤ b.samples.length ∧
      b.samples.length ≤ cfg.max_samples) := by
  constructor
  · intro b s2 h
    obtain ⟨st, hb, hcond⟩ := feed_some resample cfg s chunk b s2 h
    obtain ⟨hr, hl⟩ := takeBuffer_buffer cfg st
    rw [hb, hl]
    refine ⟨hr, ?_, Nat.min_le_right _ _⟩
    rcases hcond with hcap | hmin
    · omega
    · omega
  · intro b s2 h
    unfold flush at h
    split at h
    · exact absurd h (by simp)
    · rename_i hcond
      push_neg at hcond
      injection h with h1 _
      obtain ⟨hr, hl⟩ := takeBuffer_buffer cfg s
      rw [← Option.some.inj h1, hl]
      have hpos : 0 < s.accumulated.length := List.length_pos.mpr hcond.1
      exact ⟨hr, by omega, Nat.min_le_right _ _⟩

/-- Witness for C3 at a concrete natural-pause yield out of `feed`. -/
theorem c3_yield_bounds_witness :
    (⟨[0], 16000⟩ : AudioBuffer).sample_rate = 16000 ∧
    (⟨1, 2, 0, 0⟩ : ProcConfig).min_samples ≤
      (⟨[0], 16000⟩ : AudioBuffer).samples.length ∧
    (⟨[0], 16000⟩ : AudioBuffer).samples.length ≤
      (⟨1, 2, 0, 0⟩ : ProcConfig).max_samples :=
  (c3_yield_bounds (fun _ _ => none) ⟨1, 2, 0, 0⟩ initState ⟨[0], 16000⟩
      (by decide) (by decide)).1 ⟨[0], 16000⟩ initState (by decide)

/-- C3 counterexample: `flush` can yield a buffer shorter than
`min_samples`.  With `min_samples = 2`, one speech chunk of a single
sample followed by `flush` yields a 1-sample buffer, so the claim that
*every* yielded buffer (also from `flush`) has at least `min_samples`
samples is false. -/
theorem c3_flush_below_min :
    (flush ⟨2, 4, 2, 0⟩
      ((feed (fun _ _ => none) ⟨2, 4, 2, 0⟩ initState ⟨[0], 16000⟩).2)).1 =
      some ⟨[0], 16000⟩ ∧
    (⟨[0], 16000⟩ : AudioBuffer).samples.length <
      (⟨2, 4, 2, 0⟩ : ProcConfig).min_samples := by
  decide

/-! ## Trim lemmas -/

/-- Dropping a predicate-satisfying head twice is the same as once. -/
theorem dropWhile_dropWhile {α : Type} (p : α → Bool) (l : List α) :
    (l.dropWhile p).dropWhile p = l.dropWhile p := by
  induction l with
  | nil => rfl
  | cons a t ih =>
    by_cases h : p a = true
    · simp [List.dropWhile_cons, h, ih]
    · simp [List.dropWhile_cons, h]

/-- The head of a `dropWhile` result does not satisfy the predicate. -/
theorem head_dropWhile_not {α : Type} (p : α → Bool) (l : List α) :
    ∀ x, (l.dropWhile p).head? = some x → p x = false := by
  induction l with
  | nil => intro x h; simp at h
  | cons a t ih =>
    intro x h
    by_cases hp : p a = true
    · rw [List.dropWhile_cons, if_pos hp] at h
      exact ih x h
    · rw [List.dropWhile_cons, if_neg hp] at h
      have : a = x := Option.some.inj h
      rw [← this]
      exact Bool.eq_false_iff.mpr hp

/-- A list whose head does not satisfy `p` is fixed by `dropWhile p`. -/
theorem dropWhile_eq_self_of_head {α : Type} (p : α → Bool) (l : List α)
    (h : ∀ x, l.head? = some x → p x = false) : l.dropWhile p = l := by
  cases l with
  | nil => rfl
  | cons a t =>
    have := h a rfl
    simp [List.dropWhile_cons, this]

/-- A nonempty `dropWhile` result keeps the original last element. -/
theorem getLast?_dropWhile {α : Type} (p : α → Bool) (l : List α)
    (h : l.dropWhile p ≠ []) : (l.dropWhile p).getLast? = l.getLast? := by
  induction l with
  | nil => exact absurd rfl h
  | cons a t ih =>
    by_cases hp : p a = true
    · rw [List.dropWhile_cons, if_pos hp] at h ⊢
      have ht : t ≠ [] := by
        intro he
        rw [he] at h
        exact h rfl
      rw [ih h]
      cases t with
      | nil => exact absurd rfl ht
      | cons b u => rw [List.getLast?_cons_cons]
    · rw [List.dropWhile_cons, if_neg hp]

/-- A list fixed by leading and trailing whitespace removal is fixed by
`trim`. -/
theorem trim_eq_self (m : List Char)
    (h1 : m.dropWhile Char.isWhitespace = m)
    (h2 : m.reverse.dropWhile Char.isWhitespace = m.reverse) : trim m = m := by
  unfold trim
  rw [h1, h2, List.reverse_reverse]

/-- Rust's `str::trim` is idempotent: a trimmed string has no leading
or trailing whitespace left. -/
theorem trim_trim (l : List Char) : trim (trim l) = trim l := by
  apply trim_eq_self
  · apply dropWhile_eq_self_of_head
    intro x hx
    unfold trim at hx
    rw [List.head?_reverse] at hx
    have hb : (l.dropWhile Char.isWhitespace).reverse.dropWhile Char.isWhitespace ≠ [] := by
      intro he
      rw [he] at hx
      simp at hx
    rw [getLast?_dropWhile _ _ hb, List.getLast?_reverse] at hx
    exact head_dropWhile_not _ _ x hx
  · have e : (trim l).reverse =
        (l.dropWhile Char.isWhitespace).reverse.dropWhile Char.isWhitespace := by
      unfold trim
      rw [List.reverse_reverse]
    rw [e]
    exact dropWhile_dropWhile _ _

/-! ## Emission invariants of the decode loop -/

/-- Each `emitStep` either leaves `emitted` and `last_decoded_len`
unchanged, or appends one trimmed decode whose trimmed length strictly
exceeds the previous `last_decoded_len` and becomes the new one. -/
theorem emitStep_cases (dec : List ℕ → Option (List Char)) (st : LoopState)
    (tok : ℤ) :
    ((emitStep dec st tok).emitted = st.emitted ∧
     (emitStep dec st tok).lastLen = st.lastLen) ∨
    (∃ d, (emitStep dec st tok).emitted = st.emitted ++ [trim d] ∧
      (emitStep dec st tok).lastLen = (trim d).length ∧
      st.lastLen < (trim d).length) := by
  unfold emitStep
  dsimp only
  split
  · split
    · split
      · rename_i decoded heq hlt
        exact Or.inr ⟨decoded, rfl, rfl, hlt⟩
      · exact Or.inl ⟨rfl, rfl⟩
    · exact Or.inl ⟨rfl, rfl⟩
  · exact Or.inl ⟨rfl, rfl⟩

/-- Invariant carried through the decode loop: emitted partials have
strictly increasing lengths, the last emitted length is bounded by
`last_decoded_len`, and every partial is nonempty and trimmed. -/
def emittedInv (st : LoopState) : Prop :=
  List.Chain' (fun a b => a.length < b.length) st.emitted ∧
  (∀ p, st.emitted.getLast? = some p → p.length ≤ st.lastLen) ∧
  (∀ p ∈ st.emitted, p ≠ [] ∧ trim p = p)

/-- One emission step preserves the emission invariant. -/
theorem emitStep_emittedInv (dec : List ℕ → Option (List Char))
    (st : LoopState) (tok : ℤ) (h : emittedInv st) :
    emittedInv (emitStep dec st tok) := by
  obtain ⟨hc, hl, hm⟩ := h
  rcases emitStep_cases dec st tok with ⟨he, hn⟩ | ⟨d, he, hn, hlt⟩
  · rw [emittedInv, he, hn]
    exact ⟨hc, hl, hm⟩
  · rw [emittedInv, he, hn]
    refine ⟨?_, ?_, ?_⟩
    · rw [List.chain'_append]
      refine ⟨hc, List.chain'_singleton _, ?_⟩
      intro x hx y hy
      have hy2 : trim d = y := by simpa using hy
      have hx2 := hl x (Option.mem_def.mp hx)
      rw [← hy2]
      omega
    · intro p hp
      rw [List.getLast?_concat] at hp
      have : trim d = p := Option.some.inj hp
      rw [← this]
    · intro p hp
      rw [List.mem_append] at hp
      rcases hp with hp | hp
      · exact hm p hp
      · have : p = trim d := by simpa using hp
        rw [this]
        refine ⟨?_, trim_trim d⟩
        intro he2
        rw [he2] at hlt
        simp at hlt

/-- The decode loop preserves the emission invariant. -/
theorem decodeLoop_emittedInv (ext : StreamExt) (cs : List ℚ) :
    ∀ (k : ℕ) (st : LoopState), emittedInv st →
      emittedInv (decodeLoop ext cs k st) := by
  intro k
  induction k with
  | zero => intro st h; exact h
  | succ n ih =>
    intro st h
    rw [decodeLoop]
    exact ih _ (emitStep_emittedInv _ _ _ h)

/-- The whole generation phase satisfies the emission invariant. -/
theorem decodeRun_emittedInv (ext : StreamExt) (cs : List ℚ) :
    emittedInv (decodeRun ext cs) := by
  unfold decodeRun
  apply decodeLoop_emittedInv
  apply emitStep_emittedInv
  refine ⟨List.chain'_nil, ?_, ?_⟩
  · intro p hp
    simp at hp
  · intro p hp
    simp at hp

/-- The partials reported by `decode_streaming` are those of the
generation phase (or none at all below the prefix length). -/
theorem decodeStreaming_emitted (ext : StreamExt) (cs : List ℚ) :
    (decodeStreaming ext cs).2 = [] ∨
    (decodeStreaming ext cs).2 = (decodeRun ext cs).emitted := by
  unfold decodeStreaming
  split
  · exact Or.inl rfl
  · dsimp only
    split
    · exact Or.inr rfl
    · exact Or.inr rfl

/-! ## C4: prefix-monotone partials -/

/-- C4 (corrected): within one `decode_streaming` call — one chunk —
the sequence of strings passed to `on_partial` is strictly increasing
in length.  Across the chunks of one split window this fails, because
`last_decoded_len` restarts at 0 for each chunk (see the
counterexample). -/
theorem c4_partials_monotone_per_chunk (ext : StreamExt) (cs : List ℚ) :
    List.Chain' (fun a b => a.length < b.length) (decodeStreaming ext cs).2 := by
  rcases decodeStreaming_emitted ext cs with h | h
  · rw [h]
    exact List.chain'_nil
  · rw [h]
    exact (decodeRun_emittedInv ext cs).1

/-- C4 counterexample: one `transcribe` call over a window split into
two chunks emits "Hello" (from chunk 1) and then "Hi" (from chunk 2):
the second partial is shorter, so the partials of one window are not a
prefix-monotone sequence. -/
theorem c4_cross_chunk_partials_not_monotone :
    ¬ List.Chain' (fun a b : List Char => a.length < b.length)
      (transcribe
        ⟨fun _ => true, fun _ => [[0], [1]], fun _ => true, fun _ => 38,
         fun cs => if cs = [0] then 1000 else 1001, fun _ _ => 0,
         fun ts => if ts = [1000] then some "Hello".toList
           else if ts = [1001] then some "Hi".toList else some []⟩
        ⟨[0, 1], 16000⟩).2 := by
  have he : (transcribe
      ⟨fun _ => true, fun _ => [[0], [1]], fun _ => true, fun _ => 38,
       fun cs => if cs = [0] then 1000 else 1001, fun _ _ => 0,
       fun ts => if ts = [1000] then some "Hello".toList
         else if ts = [1001] then some "Hi".toList else some []⟩
      ⟨[0, 1], 16000⟩).2 = ["Hello".toList, "Hi".toList] := by decide
  rw [he]
  intro h
  rcases List.chain'_cons.mp h with ⟨hab, _⟩
  exact absurd hab (by decide)

/-! ## C10: partials are nonempty and trimmed -/

/-- C10 (confirmed): every string passed to `on_partial` by
`decode_streaming` is nonempty and equals its own trim (no leading or
trailing whitespace), for every oracle behaviour. -/
theorem c10_partials_trimmed_nonempty (ext : StreamExt) (cs : List ℚ)
    (p : List Char) (h : p ∈ (decodeStreaming ext cs).2) :
    p ≠ [] ∧ trim p = p := by
  rcases decodeStreaming_emitted ext cs with he | he
  · rw [he] at h
    simp at h
  · rw [he] at h
    exact (decodeRun_emittedInv ext cs).2.2 p h

/-- Witness for C10: a concrete oracle whose tokenizer decodes to
" Hi " makes the decoder emit exactly the trimmed, nonempty "Hi". -/
theorem c10_partials_trimmed_nonempty_witness :
    "Hi".toList ∈ (decodeStreaming
      (⟨fun _ => false, fun _ => [], fun _ => true, fun _ => 38,
        fun _ => 1000, fun _ _ => 0, fun _ => some " Hi ".toList⟩ : StreamExt)
      [0]).2 ∧
    ("Hi".toList ≠ [] ∧ trim "Hi".toList = "Hi".toList) :=
  ⟨by decide,
   c10_partials_trimmed_nonempty
     ⟨fun _ => false, fun _ => [], fun _ => true, fun _ => 38,
      fun _ => 1000, fun _ _ => 0, fun _ => some " Hi ".toList⟩
     [0] "Hi".toList (by decide)⟩

/-! ## C5: final results and `rtf` presence -/

/-- C5 (corrected): every `TranscriptResult` returned successfully by
`transcribe` has `is_final = true`, and its `rtf` is present whenever
the input buffer holds at least one sample.  For an *empty* input
buffer the audio duration is 0 and the code explicitly attaches
`rtf = None` to the (final) result, so the claim as stated — `rtf`
present for every input — fails (see the counterexample). -/
theorem c5_final_has_rtf (ext : StreamExt) (audio : AudioBuffer)
    (r : TranscriptResult) (h : (transcribe ext audio).1 = Except.ok r) :
    r.is_final = true ∧ (audio.samples ≠ [] → r.rtf ≠ none) := by
  unfold transcribe at h
  dsimp only at h
  cases htc : transcribeChunks ext
      (if ext.needsChunking audio.samples.length
       then ext.chunkAudio audio.samples else [audio.samples]) [] [] with
  | mk res em =>
    rw [htc] at h
    cases res with
    | ok texts =>
      dsimp only at h
      have hr := Except.ok.inj h
      rw [← hr]
      constructor
      · rfl
      · intro hne
        dsimp only
        split
        · exact Option.some_ne_none ()
        · rename_i hlen
          exact absurd (List.length_eq_zero.mp (by omega)) hne
    | error e => exact absurd h (by simp)

/-- Witness for C5 at a nonempty buffer and an oracle that succeeds. -/
theorem c5_final_has_rtf_witness :
    (⟨[], "auto".toList, true, some ()⟩ : TranscriptResult).is_final = true ∧
    ((⟨[0], 16000⟩ : AudioBuffer).samples ≠ [] →
      (⟨[], "auto".toList, true, some ()⟩ : TranscriptResult).rtf ≠ none) :=
  c5_final_has_rtf
    ⟨fun _ => false, fun _ => [], fun _ => true, fun _ => 0,
     fun _ => 0, fun _ _ => 0, fun _ => some []⟩
    ⟨[0], 16000⟩ ⟨[], "auto".toList, true, some ()⟩ rfl

/-- C5 counterexample: on an empty input buffer, `transcribe` can
succeed and then returns `is_final = true` with `rtf = None`,
contradicting the claim that a successful result never has
`rtf = None`. -/
theorem c5_empty_buffer_final_without_rtf :
    (transcribe
      (⟨fun _ => false, fun _ => [], fun _ => true, fun _ => 0,
        fun _ => 0, fun _ _ => 0, fun _ => some []⟩ : StreamExt)
      ⟨[], 16000⟩).1 =
      Except.ok ⟨[], "auto".toList, true, none⟩ ∧
    (⟨[], "auto".toList, true, none⟩ : TranscriptResult).rtf = none :=
  ⟨rfl, rfl⟩

end VoxVault


